import Mathlib

/-!
Verification of the mode-analysis core of the `visdat-course` repository.

The numeric pipeline lives in two scripts:
`final-assignment/Wintersteiger/code/ModeVisualizerRun.py` (peak detection,
clustering, windowed value lookup, corner vectors, normalization) and
`final-assignment/Wintersteiger/code/ModeAnalyzer.py` (a second copy of the
peak detectors that re-sorts its input).

Curves are embedded as lists of `(frequency, value)` pairs over `ℚ`; the
normalization step, which uses the Euclidean norm, is embedded over `ℝ`.
-/

namespace ModeViz

/-- A curve sample `(freq, imag)`, as produced by `load_lvm_as_df`. -/
abbrev Sample := ℚ × ℚ

/-- Frequency of sample `i` of a curve, mirroring `x[i]` on the numpy array
`x = df["freq"].to_numpy()` (out-of-range reads default to `0`; the source
only reads in-range indices). -/
def xv (df : List Sample) (i : ℕ) : ℚ := (df.getD i (0, 0)).1

/-- Value of sample `i` of a curve, mirroring `y[i]` on the numpy array
`y = df["imag"].to_numpy()`. -/
def yv (df : List Sample) (i : ℕ) : ℚ := (df.getD i (0, 0)).2

/-- The curve is sorted ascending (non-strictly) by frequency. -/
abbrev freqSorted (df : List Sample) : Prop :=
  List.Chain' (fun p q : Sample => p.1 ≤ q.1) df

/-- The curve has strictly ascending frequencies. -/
abbrev freqStrictSorted (df : List Sample) : Prop :=
  List.Chain' (fun p q : Sample => p.1 < q.1) df

namespace MVR

/-- `find_positive_peaks` of `ModeVisualizerRun.py` (lines 87-112): scan
interior indices `i ∈ range(1, len(df)-1)` and collect `(x[i], y[i])`
whenever `y[i-1] < y[i] and y[i] > y[i+1] and y[i] >= level`; a curve with
fewer than 3 samples yields `[]`. -/
def find_positive_peaks (df : List Sample) (level : ℚ) : List Sample :=
  if df.length < 3 then []
  else
    (List.range' 1 (df.length - 2)).filterMap fun i =>
      if yv df (i - 1) < yv df i ∧ yv df i > yv df (i + 1) ∧ yv df i ≥ level
      then some (xv df i, yv df i) else none

/-- `find_negative_peaks` of `ModeVisualizerRun.py` (lines 115-136): collect
`(x[i], y[i])` whenever `y[i-1] > y[i] and y[i] < y[i+1] and y[i] <= -level`. -/
def find_negative_peaks (df : List Sample) (level : ℚ) : List Sample :=
  if df.length < 3 then []
  else
    (List.range' 1 (df.length - 2)).filterMap fun i =>
      if yv df (i - 1) > yv df i ∧ yv df i < yv df (i + 1) ∧ yv df i ≤ -level
      then some (xv df i, yv df i) else none

/-- `peaks_from_df` of `ModeVisualizerRun.py` (lines 139-149): positive and
negative peaks concatenated, then sorted by frequency.  Python `sorted` with
`key=lambda t: t[0]` is a stable comparison sort; it is modelled by the
stable `List.insertionSort` on the first component. -/
def peaks_from_df (df : List Sample) (level : ℚ) : List Sample :=
  List.insertionSort (fun a b : Sample => a.1 ≤ b.1)
    (find_positive_peaks df level ++ find_negative_peaks df level)

/-- `np.mean` of a nonempty list: sum divided by length. -/
def mean (c : List ℚ) : ℚ := c.sum / c.length

/-- One iteration of the clustering loop of `cluster_modes` (lines 196-202).
The cluster list is kept reversed, so the head is the current cluster
(`clusters[-1]` in the Python source): if `|f - mean(clusters[-1])| <= tol`
the value is appended to the current cluster, otherwise a new cluster `[f]`
is opened. -/
def clusterStep (tol : ℚ) (cs : List (List ℚ)) (f : ℚ) : List (List ℚ) :=
  match cs with
  | [] => [[f]]
  | c :: rest => if |f - mean c| ≤ tol then (c ++ [f]) :: rest else [f] :: c :: rest

/-- `cluster_modes` of `ModeVisualizerRun.py` (lines 155-207): drop empty
per-channel arrays, concatenate, sort ascending, run the greedy
running-mean clustering pass, keep clusters with at least `min_count`
members, and return their means.  The fold keeps the cluster list reversed
(current cluster at the head) and restores source order with `reverse`. -/
def cluster_modes (all_peak_freqs : List (List ℚ)) (tol : ℚ) (min_count : ℕ) : List ℚ :=
  let flat_list := all_peak_freqs.filter fun arr => decide (0 < arr.length)
  if flat_list.isEmpty then []
  else
    let flat := flat_list.flatten
    if flat.length = 0 then []
    else
      match List.insertionSort (· ≤ ·) flat with
      | [] => []
      | f0 :: rest =>
        let clusters := (rest.foldl (clusterStep tol) [[f0]]).reverse
        (clusters.filter fun c => decide (min_count ≤ c.length)).map mean

/-- The samples of the curve whose frequency lies in `[f0 - dfw, f0 + dfw]`:
the mask `m = (freq >= f0 - df) & (freq <= f0 + df)` of `value_at`, applied
to the (equal-length) `freq` and `y` arrays. -/
def windowSamples (freq y : List ℚ) (f0 dfw : ℚ) : List (ℚ × ℚ) :=
  (freq.zip y).filter fun p => decide (f0 - dfw ≤ p.1) && decide (p.1 ≤ f0 + dfw)

/-- First index of the minimum of a list, mirroring `np.argmin`: ties are
broken toward the earliest index. -/
def argminIdx : List ℚ → ℕ
  | [] => 0
  | [_] => 0
  | a :: b :: rest =>
    let j := argminIdx (b :: rest)
    if (b :: rest).getD j 0 < a then j + 1 else 0

/-- `value_at` of `ModeVisualizerRun.py` (lines 210-231): the maximum value
over the samples in the window `[f0 - df, f0 + df]`; if the window is empty,
the value at the frequency closest to `f0` (`np.argmin(np.abs(freq - f0))`,
first occurrence on ties). -/
def value_at (freq y : List ℚ) (f0 dfw : ℚ) : ℚ :=
  match windowSamples freq y f0 dfw with
  | p :: ps => (ps.map Prod.snd).foldl max p.2
  | [] => y.getD (argminIdx (freq.map fun f => |f - f0|)) 0

/-- The four filtered curves stored under the keys `P{p}_X_x`, `P{p}_X_y`,
`P{p}_Y_x`, `P{p}_Y_y` in `self.dfs` for one structural point (corner) `p`,
already split by excitation direction (`X`/`Y`) and measurement axis
(`x`/`y`).  Presence of all four curves is structural. -/
structure CornerCurves where
  Xx : List Sample
  Xy : List Sample
  Yx : List Sample
  Yy : List Sample

/-- `ModeVisualizer16.corner_vector` of `ModeVisualizerRun.py` (lines
608-635): starting from `v = (0, 0)`, loop over the two excitation
directions, adding `(value_at(fx, yx, f0, dfw), value_at(fy, yy, f0, dfw))`
of the corresponding x- and y-measurement curves, and return `0.5 * v`. -/
def corner_vector (c : CornerCurves) (f0 dfw : ℚ) : ℚ × ℚ :=
  let v := [(c.Xx, c.Xy), (c.Yx, c.Yy)].foldl
    (fun (v : ℚ × ℚ) pr =>
      let mx := value_at (pr.1.map Prod.fst) (pr.1.map Prod.snd) f0 dfw
      let my := value_at (pr.2.map Prod.fst) (pr.2.map Prod.snd) f0 dfw
      (v.1 + mx, v.2 + my))
    (0, 0)
  (1 / 2 * v.1, 1 / 2 * v.2)

/-- Euclidean norm of a 2-D displacement vector, `np.linalg.norm` on a row
of `u`. -/
noncomputable def vnorm (v : ℝ × ℝ) : ℝ := Real.sqrt (v.1 ^ 2 + v.2 ^ 2)

/-- The normalization step of `ModeVisualizer16.draw_mode` (lines 662-668):
`denom = np.max(np.linalg.norm(u, axis=1))`, replaced by `1.0` when it is
below `1e-12`, and `u_norm = u / denom` (componentwise division of every
vector).  `np.max` of the nonempty norm array is the left fold of `max`. -/
noncomputable def normalize (u : List (ℝ × ℝ)) : List (ℝ × ℝ) :=
  match u with
  | [] => []
  | v :: vs =>
    let denom := (vs.map vnorm).foldl max (vnorm v)
    let denom := if denom < 1 / 10 ^ 12 then 1 else denom
    u.map fun w => (w.1 / denom, w.2 / denom)

/-- The divisor applied by `normalize`: the maximum Euclidean norm of the
field, replaced by `1.0` when it is below the epsilon `1e-12`. -/
noncomputable def normDenom (u : List (ℝ × ℝ)) : ℝ :=
  match u with
  | [] => 1
  | v :: vs =>
    let m := (vs.map vnorm).foldl max (vnorm v)
    if m < 1 / 10 ^ 12 then 1 else m

end MVR

namespace MA

/-- The postcondition pandas documents for `df.sort_values("freq")`: the
result is a permutation of the rows, sorted (non-strictly) by frequency.
The default kind is an unstable quicksort, so the order of rows with equal
frequency in the output is NOT determined by the source; any function with
this postcondition is an admissible model of the re-sort. -/
def SortsByFreq (sortv : List Sample → List Sample) (df : List Sample) : Prop :=
  (sortv df).Perm df ∧ freqSorted (sortv df)

/-- `find_positive_peaks` of `ModeAnalyzer.py` (lines 59-76): same guard and
scan as the `ModeVisualizerRun.py` version, but the curve is first re-sorted
by frequency with `df.sort_values("freq").reset_index(drop=True)`.  pandas
`sort_values` defaults to an unstable quicksort, so the permutation it
applies to rows of equal frequency is not determined by the source; the
re-sort is therefore a parameter `sortv`, constrained in the theorems only
by `SortsByFreq`, the postcondition pandas guarantees. -/
def find_positive_peaks (sortv : List Sample → List Sample)
    (df : List Sample) (level : ℚ) : List Sample :=
  if df.length < 3 then []
  else
    let df2 := sortv df
    (List.range' 1 (df2.length - 2)).filterMap fun i =>
      if yv df2 (i - 1) < yv df2 i ∧ yv df2 i > yv df2 (i + 1) ∧ yv df2 i ≥ level
      then some (xv df2 i, yv df2 i) else none

/-- `find_negative_peaks` of `ModeAnalyzer.py` (lines 82-99): re-sorts the
curve with the same underdetermined `sort_values` (the parameter `sortv`),
then scans for strict local minima below `-level`. -/
def find_negative_peaks (sortv : List Sample → List Sample)
    (df : List Sample) (level : ℚ) : List Sample :=
  if df.length < 3 then []
  else
    let df2 := sortv df
    (List.range' 1 (df2.length - 2)).filterMap fun i =>
      if yv df2 (i - 1) > yv df2 i ∧ yv df2 i < yv df2 (i + 1) ∧ yv df2 i ≤ -level
      then some (xv df2 i, yv df2 i) else none

end MA

namespace MVR

/-- The greedy left-to-right walk of the spec (section 4.2), written from the
words of the spec for comparison with the loop of `cluster_modes`: the
current cluster absorbs the next value `f` iff `|f - mean(current)| ≤ tol`,
otherwise the current cluster is closed and `[f]` starts a new one. -/
def specWalk (tol : ℚ) (current : List ℚ) : List ℚ → List (List ℚ)
  | [] => [current]
  | f :: rest =>
    if |f - mean current| ≤ tol then specWalk tol (current ++ [f]) rest
    else current :: specWalk tol [f] rest

/-- The cluster partition produced by the greedy pass of `cluster_modes` on
the sorted concatenation of all input lists (before the `min_count`
filter). -/
def clustersOf (lists : List (List ℚ)) (tol : ℚ) : List (List ℚ) :=
  match List.insertionSort (· ≤ ·) lists.flatten with
  | [] => []
  | f0 :: rest => specWalk tol [f0] rest

/-- The whole clustering contract, written from the words of the spec
(section 4.2): concatenate, sort ascending, walk left to right with the
running-mean rule, drop clusters with fewer than `min_support` members, and
return the mean of each surviving cluster. -/
def clusterSpec (lists : List (List ℚ)) (tol : ℚ) (min_support : ℕ) : List ℚ :=
  ((clustersOf lists tol).filter fun c => decide (min_support ≤ c.length)).map mean

end MVR

/-! ## Helper lemmas -/

/-- A `filterMap` whose body is an if-some-none is a `filter` followed by a
`map`. -/
theorem filterMap_ite {α β : Type} (p : α → Prop) [DecidablePred p] (f : α → β) :
    ∀ l : List α,
      (l.filterMap fun a => if p a then some (f a) else none)
        = (l.filter fun a => decide (p a)).map f
  | [] => rfl
  | a :: l => by
    by_cases h : p a <;>
      simp [List.filterMap_cons, List.filter_cons, h, filterMap_ite p f l]

/-- Filtering `range n` by an interior-index condition plus a predicate is
the same as filtering the interior range by the predicate alone. -/
theorem range_filter_interior (n : ℕ) (h3 : 3 ≤ n) (C : ℕ → Prop) [DecidablePred C] :
    ((List.range n).filter fun i => decide (1 ≤ i ∧ i ≤ n - 2 ∧ C i))
      = (List.range' 1 (n - 2)).filter fun i => decide (C i) := by
  have hsplit : List.range n = ([0] ++ List.range' 1 (n - 2)) ++ [n - 1] := by
    rw [List.range_eq_range']
    have e1 : ([0] ++ List.range' 1 (n - 2)) = List.range' 0 (n - 1) := by
      have h := List.range'_append_1 0 1 (n - 2)
      have hn : n - 2 + 1 = n - 1 := by omega
      rw [hn] at h
      simpa using h
    have e2 : List.range' 0 (n - 1) ++ [n - 1] = List.range' 0 n := by
      have h := List.range'_append_1 0 (n - 1) 1
      have hn : 1 + (n - 1) = n := by omega
      rw [hn] at h
      simpa using h
    rw [e1, e2]
  rw [hsplit, List.filter_append, List.filter_append]
  have hz : (List.filter (fun i => decide (1 ≤ i ∧ i ≤ n - 2 ∧ C i)) [0]) = [] := by
    simp
  have hl : (List.filter (fun i => decide (1 ≤ i ∧ i ≤ n - 2 ∧ C i)) [n - 1]) = [] := by
    simp; omega
  rw [hz, hl, List.append_nil, List.nil_append]
  apply List.filter_congr
  intro i hi
  have hmem := List.mem_range'.mp hi
  obtain ⟨k, hk, rfl⟩ := hmem
  simp only [decide_eq_decide]
  constructor
  · exact fun h => h.2.2
  · exact fun h => ⟨by omega, by omega, h⟩

/-- The positive-peak scan of `ModeVisualizerRun.py`, characterized over all
curve indices: for a curve with at least 3 samples it keeps exactly the
interior indices satisfying the strict local-maximum condition and the
threshold. -/
theorem find_positive_peaks_characterized (df : List Sample) (level : ℚ)
    (h3 : 3 ≤ df.length) :
    MVR.find_positive_peaks df level
      = ((List.range df.length).filter fun i =>
          decide (1 ≤ i ∧ i ≤ df.length - 2 ∧ yv df (i - 1) < yv df i ∧
            yv df i > yv df (i + 1) ∧ yv df i ≥ level)).map
          fun i => (xv df i, yv df i) := by
  rw [MVR.find_positive_peaks, if_neg (by omega)]
  rw [filterMap_ite
    (fun i => yv df (i - 1) < yv df i ∧ yv df i > yv df (i + 1) ∧ yv df i ≥ level)
    (fun i => (xv df i, yv df i))]
  rw [range_filter_interior df.length h3]

/-- The negative-peak scan of `ModeVisualizerRun.py`, characterized over all
curve indices. -/
theorem find_negative_peaks_characterized (df : List Sample) (level : ℚ)
    (h3 : 3 ≤ df.length) :
    MVR.find_negative_peaks df level
      = ((List.range df.length).filter fun i =>
          decide (1 ≤ i ∧ i ≤ df.length - 2 ∧ yv df (i - 1) > yv df i ∧
            yv df i < yv df (i + 1) ∧ yv df i ≤ -level)).map
          fun i => (xv df i, yv df i) := by
  rw [MVR.find_negative_peaks, if_neg (by omega)]
  rw [filterMap_ite
    (fun i => yv df (i - 1) > yv df i ∧ yv df i < yv df (i + 1) ∧ yv df i ≤ -level)
    (fun i => (xv df i, yv df i))]
  rw [range_filter_interior df.length h3]

/-! ## Claim theorems -/

/-- Claim C2: for every curve sorted ascending by frequency with at least 3
samples and every level, the positive-peak detector returns exactly the
interior samples `i` (1 ≤ i ≤ n-2, 0-indexed) with
`value[i-1] < value[i]`, `value[i] > value[i+1]` (both strict, so a
flat-topped plateau yields no peak) and `value[i] ≥ level`; the
negative-peak detector symmetrically returns exactly the samples with
`value[i-1] > value[i]`, `value[i] < value[i+1]` and `value[i] ≤ -level`. -/
theorem peak_detectors_exact (df : List Sample) (level : ℚ)
    (hs : freqSorted df) (h3 : 3 ≤ df.length) :
    MVR.find_positive_peaks df level
      = ((List.range df.length).filter fun i =>
          decide (1 ≤ i ∧ i ≤ df.length - 2 ∧ yv df (i - 1) < yv df i ∧
            yv df i > yv df (i + 1) ∧ yv df i ≥ level)).map
          (fun i => (xv df i, yv df i))
    ∧ MVR.find_negative_peaks df level
      = ((List.range df.length).filter fun i =>
          decide (1 ≤ i ∧ i ≤ df.length - 2 ∧ yv df (i - 1) > yv df i ∧
            yv df i < yv df (i + 1) ∧ yv df i ≤ -level)).map
          (fun i => (xv df i, yv df i)) :=
  ⟨find_positive_peaks_characterized df level h3,
   find_negative_peaks_characterized df level h3⟩

/-- Witness for C2 on a concrete sorted 3-sample curve: the middle sample is
a strict local maximum above the level, no negative peak exists, and a
flat-topped plateau produces no peak. -/
theorem peak_detectors_exact_witness :
    MVR.find_positive_peaks [(1, 0), (2, 5), (3, 1)] 2 = [(2, 5)]
    ∧ MVR.find_negative_peaks [(1, 0), (2, 5), (3, 1)] 2 = []
    ∧ MVR.find_positive_peaks [(1, 0), (2, 5), (3, 5), (4, 0)] 0 = [] := by
  have h := peak_detectors_exact [(1, 0), (2, 5), (3, 1)] 2
    (by simp [List.chain'_cons]; norm_num) (by norm_num)
  have h2 := peak_detectors_exact [(1, 0), (2, 5), (3, 5), (4, 0)] 0
    (by simp [List.chain'_cons]; norm_num) (by norm_num)
  refine ⟨h.1.trans ?_, h.2.trans ?_, h2.1.trans ?_⟩ <;> with_unfolding_all decide

/-- Claim C5: for every curve with fewer than 3 samples (including the empty
curve) and every level, both detectors of both scripts return an empty list
(and, being total functions, raise no error).  The guard fires before the
`ModeAnalyzer.py` re-sort, so this holds for every re-sort behavior. -/
theorem short_curve_empty_peaks (sortv : List Sample → List Sample)
    (df : List Sample) (level : ℚ) (hshort : df.length < 3) :
    MVR.find_positive_peaks df level = []
    ∧ MVR.find_negative_peaks df level = []
    ∧ MA.find_positive_peaks sortv df level = []
    ∧ MA.find_negative_peaks sortv df level = [] := by
  refine ⟨?_, ?_, ?_, ?_⟩ <;>
    simp [MVR.find_positive_peaks, MVR.find_negative_peaks,
      MA.find_positive_peaks, MA.find_negative_peaks, hshort]

/-- Witness for C5 at a concrete 2-sample curve, with the re-sort
instantiated to a concrete frequency sort. -/
theorem short_curve_empty_peaks_witness :
    MVR.find_positive_peaks [(1, 4), (2, 5)] 0 = []
    ∧ MVR.find_negative_peaks [(1, 4), (2, 5)] 0 = []
    ∧ MA.find_positive_peaks
        (fun d => List.insertionSort (fun a b : Sample => a.1 ≤ b.1) d)
        [(1, 4), (2, 5)] 0 = []
    ∧ MA.find_negative_peaks
        (fun d => List.insertionSort (fun a b : Sample => a.1 ≤ b.1) d)
        [(1, 4), (2, 5)] 0 = [] :=
  short_curve_empty_peaks
    (fun d => List.insertionSort (fun a b : Sample => a.1 ≤ b.1) d)
    [(1, 4), (2, 5)] 0 (by norm_num)

/-- Claim C8: for a structural point with all four channel curves present
(the fields of `CornerCurves`), `corner_vector` is `0.5` times the sum over
the two excitation directions of the 2-D vector made of `value_at` of the
x-measurement curve and `value_at` of the y-measurement curve at the target
frequency, i.e. the average of the two excitation-direction estimates per
axis. -/
theorem corner_vector_averages (c : MVR.CornerCurves) (f0 dfw : ℚ) :
    MVR.corner_vector c f0 dfw =
      (1 / 2 * (MVR.value_at (c.Xx.map Prod.fst) (c.Xx.map Prod.snd) f0 dfw
          + MVR.value_at (c.Yx.map Prod.fst) (c.Yx.map Prod.snd) f0 dfw),
       1 / 2 * (MVR.value_at (c.Xy.map Prod.fst) (c.Xy.map Prod.snd) f0 dfw
          + MVR.value_at (c.Yy.map Prod.fst) (c.Yy.map Prod.snd) f0 dfw)) := by
  simp only [MVR.corner_vector, List.foldl_cons, List.foldl_nil]
  rw [Prod.mk.injEq]
  constructor <;> ring

/-- The left fold of `max` over a list is one of the starting value or a
list element. -/
theorem foldl_max_mem {α : Type} [LinearOrder α] (a : α) :
    ∀ l : List α, l.foldl max a ∈ a :: l
  | [] => List.mem_singleton.mpr rfl
  | b :: l => by
    rw [List.foldl_cons]
    have h := foldl_max_mem (max a b) l
    rcases List.mem_cons.mp h with h | h
    · rw [h]
      rcases max_choice a b with e | e <;> rw [e] <;> simp
    · exact List.mem_cons_of_mem _ (List.mem_cons_of_mem _ h)

/-- Every element considered by the left fold of `max` is bounded by the
fold result. -/
theorem le_foldl_max {α : Type} [LinearOrder α] (a : α) :
    ∀ (l : List α), ∀ v ∈ a :: l, v ≤ l.foldl max a
  | [], v, hv => by
    simp only [List.mem_singleton] at hv
    simp [hv]
  | b :: l, v, hv => by
    have ih := le_foldl_max (max a b) l
    rw [List.foldl_cons]
    rcases List.mem_cons.mp hv with h | hv
    · rw [h]
      exact le_trans (le_max_left a b) (ih _ (List.mem_cons_self _ _))
    · rcases List.mem_cons.mp hv with h | hv
      · rw [h]
        exact le_trans (le_max_right a b) (ih _ (List.mem_cons_self _ _))
      · exact ih v (List.mem_cons_of_mem _ hv)

/-- The index returned by `argminIdx` is in range for a nonempty list. -/
theorem argminIdx_lt_length : ∀ (l : List ℚ), l ≠ [] → MVR.argminIdx l < l.length
  | [_], _ => by simp [MVR.argminIdx]
  | a :: b :: rest, _ => by
    have ih := argminIdx_lt_length (b :: rest) (by simp)
    by_cases h : (b :: rest).getD (MVR.argminIdx (b :: rest)) 0 < a <;>
      simp only [MVR.argminIdx, h, if_true, if_false, List.length_cons] <;>
      simp at ih ⊢ <;> omega

/-- The value at the `argminIdx` index is a minimum of the list. -/
theorem argminIdx_min : ∀ (l : List ℚ) (k : ℕ), k < l.length →
    l.getD (MVR.argminIdx l) 0 ≤ l.getD k 0
  | [a], k, hk => by
    have : k = 0 := by simpa using Nat.lt_one_iff.mp (by simpa using hk)
    subst this
    simp [MVR.argminIdx]
  | a :: b :: rest, k, hk => by
    by_cases h : (b :: rest).getD (MVR.argminIdx (b :: rest)) 0 < a
    · simp only [MVR.argminIdx, h, if_true, List.getD_cons_succ]
      match k with
      | 0 => exact le_of_lt h
      | k + 1 =>
        rw [List.getD_cons_succ]
        exact argminIdx_min (b :: rest) k (by simpa using Nat.lt_of_succ_lt_succ hk)
    · simp only [MVR.argminIdx, h, if_false, List.getD_cons_zero]
      match k with
      | 0 => exact le_refl a
      | k + 1 =>
        rw [List.getD_cons_succ]
        exact le_trans (not_lt.mp h)
          (argminIdx_min (b :: rest) k (by simpa using Nat.lt_of_succ_lt_succ hk))

/-- Indices before the `argminIdx` index carry strictly larger values: the
returned index is the first occurrence of the minimum, matching the
tie-break of `np.argmin`. -/
theorem argminIdx_first : ∀ (l : List ℚ) (k : ℕ), k < MVR.argminIdx l →
    l.getD (MVR.argminIdx l) 0 < l.getD k 0
  | [], k, hk => by simp [MVR.argminIdx] at hk
  | [a], k, hk => by simp [MVR.argminIdx] at hk
  | a :: b :: rest, k, hk => by
    by_cases h : (b :: rest).getD (MVR.argminIdx (b :: rest)) 0 < a
    · simp only [MVR.argminIdx, h, if_true, List.getD_cons_succ]
      match k with
      | 0 => exact h
      | k + 1 =>
        rw [List.getD_cons_succ]
        refine argminIdx_first (b :: rest) k ?_
        have : k + 1 < MVR.argminIdx (a :: b :: rest) := hk
        simp only [MVR.argminIdx, h, if_true] at this
        omega
    · simp only [MVR.argminIdx, h, if_false] at hk
      omega

/-- Claim C3: `value_at` returns the maximum value among the curve samples
whose frequency lies in `[target - window, target + window]`; if no sample
lies in that window, it returns the value at the sample whose frequency is
closest to the target by absolute difference, ties broken by the first
occurrence in the curve. -/
theorem value_at_window_max (freq y : List ℚ) (f0 w : ℚ)
    (hne : freq ≠ []) (hlen : freq.length = y.length) :
    (MVR.windowSamples freq y f0 w ≠ [] →
      MVR.value_at freq y f0 w ∈ (MVR.windowSamples freq y f0 w).map Prod.snd
      ∧ ∀ v ∈ (MVR.windowSamples freq y f0 w).map Prod.snd,
          v ≤ MVR.value_at freq y f0 w)
    ∧ (MVR.windowSamples freq y f0 w = [] →
      ∃ i, i < freq.length ∧ MVR.value_at freq y f0 w = y.getD i 0
        ∧ (∀ j, j < freq.length → |freq.getD i 0 - f0| ≤ |freq.getD j 0 - f0|)
        ∧ (∀ j, j < i → |freq.getD i 0 - f0| < |freq.getD j 0 - f0|)) := by
  constructor
  · intro hw
    rcases hd : MVR.windowSamples freq y f0 w with _ | ⟨p, ps⟩
    · exact absurd hd hw
    · have hv : MVR.value_at freq y f0 w = (ps.map Prod.snd).foldl max p.2 := by
        simp only [MVR.value_at, hd]
      rw [hv]
      simp only [List.map_cons]
      exact ⟨foldl_max_mem p.2 (ps.map Prod.snd), le_foldl_max p.2 (ps.map Prod.snd)⟩
  · intro hw
    have hv : MVR.value_at freq y f0 w
        = y.getD (MVR.argminIdx (freq.map fun f => |f - f0|)) 0 := by
      simp only [MVR.value_at, hw]
    have hmne : (freq.map fun f => |f - f0|) ≠ [] := by
      simpa using hne
    have hml : (freq.map fun f => |f - f0|).length = freq.length := by
      simp
    have hgd : ∀ j, j < freq.length →
        (freq.map fun f => |f - f0|).getD j 0 = |freq.getD j 0 - f0| := by
      intro j hj
      rw [List.getD_eq_getElem _ _ (by simpa using hj),
        List.getD_eq_getElem _ _ hj, List.getElem_map]
    have hi : MVR.argminIdx (freq.map fun f => |f - f0|) < freq.length := by
      have := argminIdx_lt_length (freq.map fun f => |f - f0|) hmne
      omega
    refine ⟨MVR.argminIdx (freq.map fun f => |f - f0|), hi, hv, ?_, ?_⟩
    · intro j hj
      have := argminIdx_min (freq.map fun f => |f - f0|) j (by omega)
      rwa [hgd _ hi, hgd _ hj] at this
    · intro j hj
      have := argminIdx_first (freq.map fun f => |f - f0|) j hj
      rwa [hgd _ hi, hgd _ (by omega)] at this

/-- Witness for C3: a window containing three samples with values
`[1, 5, 2]` yields `5`, and an empty window yields the value at the
closest-frequency sample (first occurrence on the tie between the samples
at frequency 2 and 3). -/
theorem value_at_window_max_witness :
    MVR.value_at [1, 2, 3] [1, 5, 2] 2 1 = 5
    ∧ MVR.value_at [1, 2, 3] [1, 5, 2] (5 / 2) (1 / 4) = 5 := by
  have h1 := (value_at_window_max [1, 2, 3] [1, 5, 2] 2 1
    (by simp) (by simp)).1 (by with_unfolding_all decide)
  have h2 := (value_at_window_max [1, 2, 3] [1, 5, 2] (5 / 2) (1 / 4)
    (by simp) (by simp)).2 (by with_unfolding_all decide)
  constructor
  · rcases h1 with ⟨hmem, hub⟩
    have hw : (MVR.windowSamples [1, 2, 3] [1, 5, 2] 2 1).map Prod.snd
        = [1, 5, 2] := by with_unfolding_all decide
    rw [hw] at hmem hub
    have h5 := hub 5 (by simp)
    simp only [List.mem_cons, List.not_mem_nil, or_false] at hmem
    rcases hmem with h | h | h
    · rw [h] at h5
      norm_num at h5
    · exact h
    · rw [h] at h5
      norm_num at h5
  · rcases h2 with ⟨i, hi, he, hmin, hfirst⟩
    have hi3 : i < 3 := by simpa using hi
    have : i = 1 := by
      interval_cases i
      · have h0 := hmin 1 (by norm_num)
        revert h0
        with_unfolding_all decide
      · rfl
      · have h2f := hfirst 1 (by norm_num)
        revert h2f
        with_unfolding_all decide
    subst this
    simpa using he

/-! ## Clustering machinery -/

/-- The fold of `clusterStep` over the remaining values, with the reversed
cluster list `current :: acc`, is the reversed form of the spec walk. -/
theorem foldl_clusterStep (tol : ℚ) :
    ∀ (rest current : List ℚ) (acc : List (List ℚ)),
      (rest.foldl (MVR.clusterStep tol) (current :: acc)).reverse
        = acc.reverse ++ MVR.specWalk tol current rest
  | [], current, acc => by simp [MVR.specWalk]
  | f :: rs, current, acc => by
    rw [List.foldl_cons]
    by_cases h : |f - MVR.mean current| ≤ tol
    · rw [show MVR.clusterStep tol (current :: acc) f = (current ++ [f]) :: acc by
        simp [MVR.clusterStep, h]]
      rw [foldl_clusterStep tol rs (current ++ [f]) acc]
      simp [MVR.specWalk, h]
    · rw [show MVR.clusterStep tol (current :: acc) f = [f] :: current :: acc by
        simp [MVR.clusterStep, h]]
      rw [foldl_clusterStep tol rs [f] (current :: acc)]
      simp [MVR.specWalk, h]

/-- Dropping the empty per-channel lists does not change the concatenation
of all values. -/
theorem flatten_filter_pos : ∀ lists : List (List ℚ),
    (lists.filter fun arr => decide (0 < arr.length)).flatten = lists.flatten
  | [] => rfl
  | l :: ls => by
    by_cases h : 0 < l.length
    · rw [List.filter_cons, if_pos (by simpa using h), List.flatten_cons,
        List.flatten_cons, flatten_filter_pos ls]
    · have hl : l = [] := by
        cases l
        · rfl
        · simp at h
      subst hl
      rw [List.filter_cons, if_neg (by simp), List.flatten_cons, List.nil_append]
      exact flatten_filter_pos ls

/-- `cluster_modes` agrees with the clustering contract written from the
words of the spec. -/
theorem cluster_modes_eq_clusterSpec (lists : List (List ℚ)) (tol : ℚ) (minc : ℕ) :
    MVR.cluster_modes lists tol minc = MVR.clusterSpec lists tol minc := by
  have hflat := flatten_filter_pos lists
  rw [MVR.cluster_modes, MVR.clusterSpec, MVR.clustersOf, ← hflat]
  by_cases h1 : (lists.filter fun arr => decide (0 < arr.length)).isEmpty
  · rw [if_pos h1]
    have hnil : (lists.filter fun arr => decide (0 < arr.length)) = [] :=
      List.isEmpty_iff.mp h1
    rw [hnil]
    simp
  · rw [if_neg h1]
    by_cases h2 : (lists.filter fun arr => decide (0 < arr.length)).flatten.length = 0
    · rw [if_pos h2]
      have hnil : (lists.filter fun arr => decide (0 < arr.length)).flatten = [] :=
        List.length_eq_zero.mp h2
      rw [hnil]
      simp
    · rw [if_neg h2]
      rcases hsort : List.insertionSort (· ≤ ·)
          (lists.filter fun arr => decide (0 < arr.length)).flatten with _ | ⟨f0, rest⟩
      · exfalso
        apply h2
        have hp := List.perm_insertionSort (· ≤ ·)
          (lists.filter fun arr => decide (0 < arr.length)).flatten
        rw [hsort] at hp
        simpa using hp.symm.length_eq
      · have hfold := foldl_clusterStep tol rest [f0] []
        simp only [List.reverse_nil, List.nil_append] at hfold
        rw [hsort]
        dsimp only
        rw [hfold]

/-- Claim C1: `cluster_modes` concatenates all input frequencies into one
flat list, sorts it ascending, and makes a single left-to-right greedy pass
in which a value joins the current cluster iff it is within `tolerance` of
the running mean of that cluster (the contract `clusterSpec`, written from
the words of the spec); in particular, for values `a < b < c` with
`|b - a| ≤ tol`, `|c - a| > tol` and `|c - mean {a, b}| ≤ tol`, all three
values end in one cluster (drift-following). -/
theorem cluster_modes_greedy :
    (∀ (lists : List (List ℚ)) (tol : ℚ) (minc : ℕ),
      MVR.cluster_modes lists tol minc = MVR.clusterSpec lists tol minc)
    ∧ ∀ a b c tol : ℚ, a < b → b < c → |b - a| ≤ tol → |c - a| > tol →
        |c - (a + b) / 2| ≤ tol →
        MVR.cluster_modes [[a, b, c]] tol 1 = [(a + b + c) / 3] := by
  refine ⟨cluster_modes_eq_clusterSpec, ?_⟩
  intro a b c tol hab hbc h3 _ h5
  rw [cluster_modes_eq_clusterSpec, MVR.clusterSpec, MVR.clustersOf]
  have hflt : ([[a, b, c]] : List (List ℚ)).flatten = [a, b, c] := by simp
  rw [hflt]
  have hsorted : List.Sorted (· ≤ ·) [a, b, c] := by
    simp only [List.sorted_cons, List.mem_cons, List.mem_singleton]
    refine ⟨?_, ?_, by simp⟩
    · intro x hx
      rcases hx with rfl | rfl | h
      · exact le_of_lt hab
      · exact le_of_lt (lt_trans hab hbc)
      · simp at h
    · intro x hx
      rcases hx with rfl | h
      · exact le_of_lt hbc
      · simp at h
  rw [List.Sorted.insertionSort_eq hsorted]
  dsimp only
  have hm1 : MVR.mean [a] = a := by simp [MVR.mean]
  have hm2 : MVR.mean [a, b] = (a + b) / 2 := by
    rw [MVR.mean]
    norm_num
  rw [MVR.specWalk, hm1, if_pos h3]
  rw [show ([a] ++ [b]) = [a, b] by simp]
  rw [MVR.specWalk, hm2, if_pos h5]
  rw [show ([a, b] ++ [c]) = [a, b, c] by simp]
  rw [MVR.specWalk]
  rw [List.filter_cons, if_pos (by simp)]
  simp only [List.filter_nil, List.map_cons, List.map_nil]
  rw [MVR.mean]
  norm_num
  ring

/-- Witness for C1 (drift-following) at `a = 0`, `b = 1`, `c = 7/5`,
`tol = 1`: `b` is within tolerance of `a`, `c` is not within tolerance of
`a`, but `c` is within tolerance of the mean `1/2` of `{a, b}`, so one
cluster with mean `4/5` results. -/
theorem cluster_modes_greedy_witness :
    MVR.cluster_modes [[0, 1, 7 / 5]] 1 1 = [4 / 5] := by
  have h := cluster_modes_greedy.2 0 1 (7 / 5) 1 (by norm_num) (by norm_num)
    (by rw [abs_of_nonneg] <;> norm_num)
    (by rw [abs_of_nonneg] <;> norm_num)
    (by rw [abs_of_nonneg] <;> norm_num)
  rw [h]
  norm_num

/-- Claim C4: after the greedy pass, exactly the clusters with member count
at least `min_support` survive and each contributes its arithmetic mean;
`cluster_modes` returns the empty sequence whenever no input list contains
any value (a valid outcome of the total function, not a fault) and whenever
no cluster reaches `min_support`. -/
theorem cluster_modes_support_rule :
    (∀ (lists : List (List ℚ)) (tol : ℚ) (minc : ℕ),
      MVR.cluster_modes lists tol minc
        = ((MVR.clustersOf lists tol).filter fun c => decide (minc ≤ c.length)).map MVR.mean)
    ∧ (∀ (lists : List (List ℚ)) (tol : ℚ) (minc : ℕ), lists.flatten = [] →
      MVR.cluster_modes lists tol minc = [])
    ∧ (∀ (lists : List (List ℚ)) (tol : ℚ) (minc : ℕ),
      (∀ c ∈ MVR.clustersOf lists tol, c.length < minc) →
      MVR.cluster_modes lists tol minc = []) := by
  refine ⟨?_, ?_, ?_⟩
  · intro lists tol minc
    rw [cluster_modes_eq_clusterSpec]
    rfl
  · intro lists tol minc hnil
    rw [cluster_modes_eq_clusterSpec, MVR.clusterSpec, MVR.clustersOf, hnil]
    simp
  · intro lists tol minc hall
    rw [cluster_modes_eq_clusterSpec, MVR.clusterSpec]
    have hfe : (MVR.clustersOf lists tol).filter (fun c => decide (minc ≤ c.length)) = [] := by
      rw [List.filter_eq_nil_iff]
      intro c hc
      simpa using Nat.not_le.mpr (hall c hc)
    rw [hfe]
    rfl

/-- Witness for C4: an all-empty input yields no modes, and an input whose
two singleton clusters both miss `min_support = 2` also yields no modes. -/
theorem cluster_modes_support_rule_witness :
    MVR.cluster_modes [[], []] 1 1 = []
    ∧ MVR.cluster_modes [[1, 5]] 1 2 = [] := by
  refine ⟨cluster_modes_support_rule.2.1 [[], []] 1 1 (by simp),
    cluster_modes_support_rule.2.2 [[1, 5]] 1 2 ?_⟩
  intro c hc
  have hcl : MVR.clustersOf [[1, 5]] 1 = [[1], [5]] := by
    with_unfolding_all decide
  rw [hcl] at hc
  simp only [List.mem_cons, List.not_mem_nil, or_false] at hc
  rcases hc with rfl | rfl <;> norm_num

/-- The mean of a nonempty list is bounded by any upper bound of its
elements. -/
theorem mean_le_of_forall_le (c : List ℚ) (f : ℚ) (hne : c ≠ [])
    (h : ∀ a ∈ c, a ≤ f) : MVR.mean c ≤ f := by
  have hlen : 0 < (c.length : ℚ) := by
    have : 0 < c.length := List.length_pos.mpr hne
    exact_mod_cast this
  rw [MVR.mean, div_le_iff hlen]
  calc c.sum ≤ c.length • f := List.sum_le_card_nsmul c f h
  _ = f * c.length := by rw [nsmul_eq_mul]; ring

/-- Appending a value at least as large as the mean does not decrease the
mean. -/
theorem mean_le_mean_append (c : List ℚ) (f : ℚ) (hne : c ≠ [])
    (h : MVR.mean c ≤ f) : MVR.mean c ≤ MVR.mean (c ++ [f]) := by
  have hlen : 0 < (c.length : ℚ) := by
    have : 0 < c.length := List.length_pos.mpr hne
    exact_mod_cast this
  rw [MVR.mean] at h ⊢
  rw [MVR.mean, List.sum_append, List.length_append]
  simp only [List.sum_cons, List.sum_nil, add_zero, List.length_cons, List.length_nil]
  push_cast
  rw [div_le_div_iff hlen (by linarith)]
  rw [div_le_iff hlen] at h
  nlinarith [h]

/-- Invariant of the greedy walk on a sorted input: all produced clusters
have strictly increasing means, and the first cluster extends the current
one, so its mean is at least the current mean. -/
theorem specWalk_chain (tol : ℚ) (htol : 0 ≤ tol) :
    ∀ (rest current : List ℚ), current ≠ [] →
      List.Pairwise (· ≤ ·) (current ++ rest) →
      List.Chain' (· < ·) ((MVR.specWalk tol current rest).map MVR.mean)
      ∧ ∃ c0 cs, MVR.specWalk tol current rest = c0 :: cs
          ∧ MVR.mean current ≤ MVR.mean c0
  | [], current, hne, hp =>
    ⟨by simp [MVR.specWalk], current, [], by simp [MVR.specWalk], le_refl _⟩
  | f :: rs, current, hne, hp => by
    have hle : ∀ a ∈ current, a ≤ f := by
      intro a ha
      exact (List.pairwise_append.mp hp).2.2 a ha f (by simp)
    have hmf : MVR.mean current ≤ f := mean_le_of_forall_le current f hne hle
    by_cases h : |f - MVR.mean current| ≤ tol
    · have hp2 : List.Pairwise (· ≤ ·) ((current ++ [f]) ++ rs) := by
        rw [List.append_assoc]
        simpa using hp
      rcases specWalk_chain tol htol rs (current ++ [f]) (by simp) hp2
        with ⟨hch, c0, cs, he, hm⟩
      rw [show MVR.specWalk tol current (f :: rs)
          = MVR.specWalk tol (current ++ [f]) rs by simp [MVR.specWalk, h]]
      exact ⟨hch, c0, cs, he,
        le_trans (mean_le_mean_append current f hne hmf) hm⟩
    · have hp3 : List.Pairwise (· ≤ ·) ([f] ++ rs) :=
        hp.sublist (by simpa using List.sublist_append_right current (f :: rs))
      rcases specWalk_chain tol htol rs [f] (by simp) hp3
        with ⟨hch, c0, cs, he, hm⟩
      have hfm : MVR.mean [f] = f := by simp [MVR.mean]
      have hlt : MVR.mean current < MVR.mean c0 := by
        have habs : |f - MVR.mean current| = f - MVR.mean current :=
          abs_of_nonneg (by linarith)
        rw [habs] at h
        push_neg at h
        have : MVR.mean current < f := by linarith
        rw [hfm] at hm
        linarith
      rw [show MVR.specWalk tol current (f :: rs)
          = current :: MVR.specWalk tol [f] rs by simp [MVR.specWalk, h]]
      constructor
      · rw [he, List.map_cons, List.map_cons, List.chain'_cons]
        refine ⟨hlt, ?_⟩
        rw [he, List.map_cons] at hch
        exact hch
      · exact ⟨current, MVR.specWalk tol [f] rs, rfl, le_refl _⟩

/-- Claim C7: for every input and every positive tolerance, the mode list
returned by `cluster_modes` is strictly ascending, hence contains no
duplicate values: consecutive clusters of the sorted greedy pass have
strictly increasing means, and filtering by support preserves the order. -/
theorem cluster_modes_strict_ascending (lists : List (List ℚ)) (tol : ℚ)
    (minc : ℕ) (htol : 0 < tol) :
    List.Pairwise (· < ·) (MVR.cluster_modes lists tol minc) := by
  rw [cluster_modes_eq_clusterSpec, MVR.clusterSpec, MVR.clustersOf]
  rcases hs : List.insertionSort (· ≤ ·) lists.flatten with _ | ⟨f0, rest⟩
  · simp
  · have hsorted : List.Pairwise (· ≤ ·) (f0 :: rest) := by
      rw [← hs]
      exact List.sorted_insertionSort (· ≤ ·) lists.flatten
    have hch := specWalk_chain tol (le_of_lt htol) rest [f0] (by simp)
      (by simpa using hsorted)
    have hpw : List.Pairwise (· < ·) ((MVR.specWalk tol [f0] rest).map MVR.mean) :=
      List.chain'_iff_pairwise.mp hch.1
    have hsub : List.Sublist
        (((MVR.specWalk tol [f0] rest).filter
          fun c => decide (minc ≤ c.length)).map MVR.mean)
        ((MVR.specWalk tol [f0] rest).map MVR.mean) :=
      (List.filter_sublist _).map MVR.mean
    dsimp only
    exact hpw.sublist hsub

/-- Witness for C7: two far-apart inputs with `tol = 1/2` and support 1
produce the strictly ascending mode list `[1, 5]`. -/
theorem cluster_modes_strict_ascending_witness :
    List.Pairwise (· < ·) (MVR.cluster_modes [[5, 1]] (1 / 2) 1)
    ∧ MVR.cluster_modes [[5, 1]] (1 / 2) 1 = [1, 5] :=
  ⟨cluster_modes_strict_ascending [[5, 1]] (1 / 2) 1 (by norm_num),
   by with_unfolding_all decide⟩

/-- Transitivity of the frequency comparison used to sort peak lists. -/
instance : IsTrans Sample fun a b => a.1 ≤ b.1 :=
  ⟨fun _ _ _ h1 h2 => le_trans h1 h2⟩

/-- Totality of the frequency comparison used to sort peak lists. -/
instance : IsTotal Sample fun a b => a.1 ≤ b.1 :=
  ⟨fun a b => le_total a.1 b.1⟩

/-- Transitivity of the strict frequency comparison. -/
instance : IsTrans Sample fun a b => a.1 < b.1 :=
  ⟨fun _ _ _ h1 h2 => lt_trans h1 h2⟩

/-- Counterexample to claim C6 as stated: on a curve that is sorted
ascending (non-strictly) by frequency but repeats the frequency `1`, the
sample `(1, 5)` is a positive peak and the sample `(1, -5)` is a negative
peak, so the combined list contains a positive and a negative peak at the
same frequency. -/
theorem combined_peaks_shared_freq_counterexample :
    freqSorted [(0, 0), (1, 5), (1, -5), (1, 0), (2, 0)]
    ∧ (1, 5) ∈ MVR.find_positive_peaks [(0, 0), (1, 5), (1, -5), (1, 0), (2, 0)] 1
    ∧ (1, -5) ∈ MVR.find_negative_peaks [(0, 0), (1, 5), (1, -5), (1, 0), (2, 0)] 1
    ∧ (1, 5) ∈ MVR.peaks_from_df [(0, 0), (1, 5), (1, -5), (1, 0), (2, 0)] 1
    ∧ (1, -5) ∈ MVR.peaks_from_df [(0, 0), (1, 5), (1, -5), (1, 0), (2, 0)] 1 := by
  refine ⟨by simp [List.chain'_cons], ?_, ?_, ?_, ?_⟩ <;>
    with_unfolding_all decide

/-- Claim C6 amended: for every curve with strictly ascending frequencies,
the combined peak list is the union (a permutation of the concatenation) of
the positive and the negative peaks, sorted ascending by frequency, and no
frequency occurs both as a positive and as a negative peak. -/
theorem combined_peaks_sorted_disjoint (df : List Sample) (level : ℚ)
    (hs : freqStrictSorted df) :
    freqSorted (MVR.peaks_from_df df level)
    ∧ (MVR.peaks_from_df df level).Perm
        (MVR.find_positive_peaks df level ++ MVR.find_negative_peaks df level)
    ∧ ∀ p ∈ MVR.find_positive_peaks df level,
        ∀ q ∈ MVR.find_negative_peaks df level, p.1 ≠ q.1 := by
  refine ⟨?_, ?_, ?_⟩
  · rw [MVR.peaks_from_df]
    exact List.chain'_iff_pairwise.mpr
      (List.sorted_insertionSort (fun a b : Sample => a.1 ≤ b.1) _)
  · exact List.perm_insertionSort (fun a b : Sample => a.1 ≤ b.1) _
  · by_cases h3 : 3 ≤ df.length
    · intro p hp q hq
      rw [find_positive_peaks_characterized df level h3] at hp
      rw [find_negative_peaks_characterized df level h3] at hq
      rcases List.mem_map.mp hp with ⟨i, hi, hpe⟩
      rcases List.mem_map.mp hq with ⟨j, hj, hqe⟩
      rcases List.mem_filter.mp hi with ⟨hir, hic⟩
      rcases List.mem_filter.mp hj with ⟨hjr, hjc⟩
      have hic2 := of_decide_eq_true hic
      have hjc2 := of_decide_eq_true hjc
      have hiR := List.mem_range.mp hir
      have hjR := List.mem_range.mp hjr
      have hij : i ≠ j := by
        intro he
        subst he
        have h1 := hic2.2.2.1
        have h2 := hjc2.2.2.1
        exact absurd h1 (not_lt.mpr (le_of_lt h2))
      have hpw : List.Pairwise (fun p q : Sample => p.1 < q.1) df :=
        List.chain'_iff_pairwise.mp hs
      have hmono := List.pairwise_iff_getElem.mp hpw
      have hxne : xv df i ≠ xv df j := by
        rw [xv, xv, List.getD_eq_getElem _ _ hiR, List.getD_eq_getElem _ _ hjR]
        rcases Nat.lt_trichotomy i j with h | h | h
        · exact ne_of_lt (hmono i j hiR hjR h)
        · exact absurd h hij
        · exact (ne_of_lt (hmono j i hjR hiR h)).symm
      rw [← hpe, ← hqe]
      exact hxne
    · intro p hp
      exfalso
      rw [MVR.find_positive_peaks, if_pos (by omega)] at hp
      exact List.not_mem_nil p hp

/-- Witness for the amended C6 at a strictly sorted curve with one positive
and one negative peak. -/
theorem combined_peaks_sorted_disjoint_witness :
    freqSorted (MVR.peaks_from_df [(0, 0), (1, 5), (2, 0), (3, -7), (4, 0)] 1)
    ∧ (MVR.peaks_from_df [(0, 0), (1, 5), (2, 0), (3, -7), (4, 0)] 1).Perm
        (MVR.find_positive_peaks [(0, 0), (1, 5), (2, 0), (3, -7), (4, 0)] 1
          ++ MVR.find_negative_peaks [(0, 0), (1, 5), (2, 0), (3, -7), (4, 0)] 1)
    ∧ ∀ p ∈ MVR.find_positive_peaks [(0, 0), (1, 5), (2, 0), (3, -7), (4, 0)] 1,
        ∀ q ∈ MVR.find_negative_peaks [(0, 0), (1, 5), (2, 0), (3, -7), (4, 0)] 1,
          p.1 ≠ q.1 :=
  combined_peaks_sorted_disjoint [(0, 0), (1, 5), (2, 0), (3, -7), (4, 0)] 1
    (by simp [List.chain'_cons]; norm_num)

/-- A frequency-sorted permutation of a curve with strictly ascending
frequencies is that curve itself: when all frequencies are distinct the
sorted row order is unique, so every admissible re-sort is the identity. -/
theorem perm_sorted_eq_of_strict : ∀ (df l : List Sample), l.Perm df →
    freqSorted l → freqStrictSorted df → l = df
  | [], l, hperm, _, _ => hperm.eq_nil
  | d :: ds, l, hperm, hl, hdf => by
    rcases l with _ | ⟨x, xs⟩
    · exact absurd hperm.symm.eq_nil (by simp)
    · have hpl : List.Pairwise (fun p q : Sample => p.1 ≤ q.1) (x :: xs) :=
        List.chain'_iff_pairwise.mp hl
      have hpd : List.Pairwise (fun p q : Sample => p.1 < q.1) (d :: ds) :=
        List.chain'_iff_pairwise.mp hdf
      have hxd : x = d := by
        have hxmem : x ∈ d :: ds := hperm.mem_iff.mp (List.mem_cons_self x xs)
        rcases List.mem_cons.mp hxmem with h | h
        · exact h
        · exfalso
          have hdx : d.1 < x.1 := (List.pairwise_cons.mp hpd).1 x h
          have hdmem : d ∈ x :: xs := hperm.mem_iff.mpr (List.mem_cons_self d ds)
          rcases List.mem_cons.mp hdmem with h2 | h2
          · rw [h2] at hdx
            exact lt_irrefl x.1 hdx
          · have hxled : x.1 ≤ d.1 := (List.pairwise_cons.mp hpl).1 d h2
            exact absurd hdx (not_lt.mpr hxled)
      subst hxd
      have htail : xs = ds :=
        perm_sorted_eq_of_strict ds xs hperm.cons_inv
          (List.chain'_iff_pairwise.mpr (List.pairwise_cons.mp hpl).2)
          (List.chain'_iff_pairwise.mpr (List.pairwise_cons.mp hpd).2)
      rw [htail]

/-- Counterexample to claim C10 as stated: the curve
`[(0, 0), (1, 5), (1, 4)]` is sorted ascending (non-strictly) by frequency,
and `[(0, 0), (1, 4), (1, 5)]` is a frequency-sorted permutation of it, so
it is an admissible result of the unstable pandas re-sort; scanning the
curve directly finds the positive peak `(1, 5)`, while scanning the
re-sorted rows finds no positive peak at all. -/
theorem analyzer_resort_counterexample :
    List.Perm [((0 : ℚ), (0 : ℚ)), (1, 4), (1, 5)] [(0, 0), (1, 5), (1, 4)]
    ∧ freqSorted [((0 : ℚ), (0 : ℚ)), (1, 5), (1, 4)]
    ∧ freqSorted [((0 : ℚ), (0 : ℚ)), (1, 4), (1, 5)]
    ∧ MA.SortsByFreq (fun _ => [(0, 0), (1, 4), (1, 5)]) [(0, 0), (1, 5), (1, 4)]
    ∧ MVR.find_positive_peaks [(0, 0), (1, 5), (1, 4)] 1 = [(1, 5)]
    ∧ MA.find_positive_peaks (fun _ => [(0, 0), (1, 4), (1, 5)])
        [(0, 0), (1, 5), (1, 4)] 1 = [] := by
  have hperm : List.Perm [((0 : ℚ), (0 : ℚ)), (1, 4), (1, 5)]
      [(0, 0), (1, 5), (1, 4)] :=
    List.Perm.cons (0, 0) (List.Perm.swap (1, 5) (1, 4) [])
  refine ⟨hperm, by simp [List.chain'_cons], by simp [List.chain'_cons],
    ⟨hperm, by simp [List.chain'_cons]⟩, ?_, ?_⟩ <;> with_unfolding_all decide

/-- Claim C10 amended: for every curve with strictly ascending frequencies
and every re-sort satisfying the postcondition pandas guarantees for
`sort_values` (the result is a frequency-sorted permutation of the rows),
the peak detectors of `ModeAnalyzer.py` return exactly the same positive and
negative peak lists as the detectors of `ModeVisualizerRun.py`. -/
theorem analyzer_matches_visualizer (sortv : List Sample → List Sample)
    (df : List Sample) (level : ℚ) (hsv : MA.SortsByFreq sortv df)
    (hs : freqStrictSorted df) :
    MA.find_positive_peaks sortv df level = MVR.find_positive_peaks df level
    ∧ MA.find_negative_peaks sortv df level = MVR.find_negative_peaks df level := by
  have heq : sortv df = df := perm_sorted_eq_of_strict df (sortv df) hsv.1 hsv.2 hs
  constructor
  · rw [MA.find_positive_peaks, MVR.find_positive_peaks]
    by_cases h : df.length < 3
    · rw [if_pos h, if_pos h]
    · rw [if_neg h, if_neg h]
      dsimp only
      rw [heq]
  · rw [MA.find_negative_peaks, MVR.find_negative_peaks]
    by_cases h : df.length < 3
    · rw [if_pos h, if_pos h]
    · rw [if_neg h, if_neg h]
      dsimp only
      rw [heq]

/-- Witness for the amended C10 at a concrete strictly sorted curve, with
the re-sort instantiated to a concrete frequency sort. -/
theorem analyzer_matches_visualizer_witness :
    MA.find_positive_peaks
        (fun d => List.insertionSort (fun a b : Sample => a.1 ≤ b.1) d)
        [(1, 0), (2, 5), (3, 1)] 2
      = MVR.find_positive_peaks [(1, 0), (2, 5), (3, 1)] 2
    ∧ MA.find_negative_peaks
        (fun d => List.insertionSort (fun a b : Sample => a.1 ≤ b.1) d)
        [(1, 0), (2, 5), (3, 1)] 2
      = MVR.find_negative_peaks [(1, 0), (2, 5), (3, 1)] 2 :=
  analyzer_matches_visualizer
    (fun d => List.insertionSort (fun a b : Sample => a.1 ≤ b.1) d)
    [(1, 0), (2, 5), (3, 1)] 2
    ⟨List.perm_insertionSort (fun a b : Sample => a.1 ≤ b.1) _,
     List.chain'_iff_pairwise.mpr
       (List.sorted_insertionSort (fun a b : Sample => a.1 ≤ b.1) _)⟩
    (by simp [List.chain'_cons]; norm_num)

/-- Norm of a componentwise-scaled vector: dividing both components by a
positive divisor divides the Euclidean norm by that divisor. -/
theorem vnorm_div (w : ℝ × ℝ) (d : ℝ) (hd : 0 < d) :
    MVR.vnorm (w.1 / d, w.2 / d) = MVR.vnorm w / d := by
  rw [MVR.vnorm, MVR.vnorm]
  have he : (w.1 / d) ^ 2 + (w.2 / d) ^ 2 = (w.1 ^ 2 + w.2 ^ 2) / d ^ 2 := by
    field_simp
  rw [he, Real.sqrt_div (by positivity), Real.sqrt_sq (le_of_lt hd)]

/-- Claim C9: `normalize` divides every vector in the field by the maximum
Euclidean norm over all vectors, except that when that maximum is below the
fixed epsilon `1e-12` the divisor is `1`; the divisor is always positive
(never zero), and the output norms are the input norms divided by the
divisor, so an all-near-zero field stays all-near-zero. -/
theorem normalize_divides_by_max_norm (u : List (ℝ × ℝ)) (v : ℝ × ℝ)
    (vs : List (ℝ × ℝ)) (hu : u = v :: vs) :
    (∀ w ∈ u, MVR.vnorm w ≤ (vs.map MVR.vnorm).foldl max (MVR.vnorm v))
    ∧ (vs.map MVR.vnorm).foldl max (MVR.vnorm v) ∈ u.map MVR.vnorm
    ∧ MVR.normDenom u
        = (if (vs.map MVR.vnorm).foldl max (MVR.vnorm v) < 1 / 10 ^ 12 then 1
          else (vs.map MVR.vnorm).foldl max (MVR.vnorm v))
    ∧ 0 < MVR.normDenom u
    ∧ MVR.normalize u
        = u.map (fun w => (w.1 / MVR.normDenom u, w.2 / MVR.normDenom u))
    ∧ (MVR.normalize u).map MVR.vnorm
        = u.map (fun w => MVR.vnorm w / MVR.normDenom u) := by
  subst hu
  have hdenom : MVR.normDenom (v :: vs)
      = (if (vs.map MVR.vnorm).foldl max (MVR.vnorm v) < 1 / 10 ^ 12 then 1
        else (vs.map MVR.vnorm).foldl max (MVR.vnorm v)) := rfl
  have hpos : 0 < MVR.normDenom (v :: vs) := by
    rw [hdenom]
    by_cases h : (vs.map MVR.vnorm).foldl max (MVR.vnorm v) < 1 / 10 ^ 12
    · rw [if_pos h]
      norm_num
    · rw [if_neg h]
      push_neg at h
      calc (0 : ℝ) < 1 / 10 ^ 12 := by norm_num
      _ ≤ _ := h
  have hnorm : MVR.normalize (v :: vs)
      = (v :: vs).map fun w =>
          (w.1 / MVR.normDenom (v :: vs), w.2 / MVR.normDenom (v :: vs)) := rfl
  refine ⟨?_, ?_, hdenom, hpos, hnorm, ?_⟩
  · intro w hw
    apply le_foldl_max (MVR.vnorm v) (vs.map MVR.vnorm)
    rcases List.mem_cons.mp hw with h | h
    · rw [h]
      exact List.mem_cons_self _ _
    · exact List.mem_cons_of_mem _ (List.mem_map_of_mem MVR.vnorm h)
  · have := foldl_max_mem (MVR.vnorm v) (vs.map MVR.vnorm)
    simpa using this
  · rw [hnorm, List.map_map]
    apply List.map_congr_left
    intro w _
    simp only [Function.comp_apply]
    exact vnorm_div w (MVR.normDenom (v :: vs)) hpos

/-- Witness for C9: a field of three axis-aligned vectors with norms
`[1/2, 2, 1]` has maximum norm `2`, which is at least the epsilon, and the
normalized norms are `[1/4, 1, 1/2]`. -/
theorem normalize_divides_by_max_norm_witness :
    (MVR.normalize [((1 : ℝ) / 2, 0), (2, 0), (1, 0)]).map MVR.vnorm
      = [1 / 4, 1, 1 / 2] := by
  have hn : ∀ x : ℝ, 0 ≤ x → MVR.vnorm (x, 0) = x := by
    intro x hx
    rw [MVR.vnorm]
    simp [Real.sqrt_sq hx]
  have h := (normalize_divides_by_max_norm [((1 : ℝ) / 2, 0), (2, 0), (1, 0)]
    ((1 : ℝ) / 2, 0) [(2, 0), (1, 0)] rfl).2.2.2.2.2
  rw [h]
  have hd : MVR.normDenom [((1 : ℝ) / 2, 0), (2, 0), (1, 0)] = 2 := by
    show (if ([((2 : ℝ), 0), (1, 0)].map MVR.vnorm).foldl max
        (MVR.vnorm ((1 : ℝ) / 2, 0)) < 1 / 10 ^ 12 then 1
      else ([((2 : ℝ), 0), (1, 0)].map MVR.vnorm).foldl max
        (MVR.vnorm ((1 : ℝ) / 2, 0))) = 2
    rw [List.map_cons, List.map_cons, List.map_nil, List.foldl_cons,
      List.foldl_cons, List.foldl_nil]
    rw [hn (1 / 2) (by norm_num), hn 2 (by norm_num), hn 1 (by norm_num)]
    rw [max_eq_right (by norm_num : (1 : ℝ) / 2 ≤ 2),
      max_eq_left (by norm_num : (1 : ℝ) ≤ 2)]
    rw [if_neg (by norm_num)]
  rw [hd]
  rw [List.map_cons, List.map_cons, List.map_cons, List.map_nil]
  rw [hn (1 / 2) (by norm_num), hn 2 (by norm_num), hn 1 (by norm_num)]
  norm_num

end ModeViz
